import Mathlib

/-!
Shallow embedding of `src/lib.rs` (nomina): an order-N character Markov
chain trained on a list of names, a stochastic generator with a
padding-marker termination convention, a truncation-repair step, and
capitalization utilities.

Rust `String`s are modelled as `List Char` (their character sequences).
Rust byte-indexed operations (`&s[1..]`, `s.len()`) are modelled through
`Char.utf8Size`; an operation that panics in Rust is modelled with
`Option` (`none` = panic).  The `HashMap<String, Vec<char>>` is modelled
as an association list with first-match lookup (`chainGet`) and the
`entry(..).or_default().push(..)` update (`chainPush`); only `get` is ever
observed, so the association-list model is faithful.
-/

/-- The padding / sentinel marker `'^'` used by the Rust code. -/
def hat : Char := '^'

/-- The `'\0'` sentinel checked by the generator. -/
def nul : Char := Char.ofNat 0

/-- A transition table: context string to observed next characters. -/
abbrev Chain := List (List Char × List Char)

/-- `HashMap::get`: first binding whose key equals `key`. -/
def chainGet : Chain → List Char → Option (List Char)
  | [], _ => none
  | (k, v) :: rest, key => if k = key then some v else chainGet rest key

/-- `chain.entry(key).or_default().push(c)`. -/
def chainPush : Chain → List Char → Char → Chain
  | [], key, c => [(key, [c])]
  | (k, v) :: rest, key, c =>
    if k = key then (k, v ++ [c]) :: rest else (k, v) :: chainPush rest key c

/-- Rust `slice::windows n`: all contiguous length-`n` subslices, in order. -/
def windows (n : Nat) : List Char → List (List Char)
  | [] => []
  | c :: t => if (c :: t).length < n then [] else (c :: t).take n :: windows n t

/-- The padded, lowercased training string:
`format!("{}{}", "^".repeat(order), name.to_lowercase())`.
`Char.toLower` agrees with Rust `to_lowercase` on ASCII; the development
only instantiates non-ASCII characters at points fixed by both. -/
def paddedName (order : Nat) (name : List Char) : List Char :=
  List.replicate order hat ++ name.map Char.toLower

/-- The per-name inner loop of `build_chain`: slide a window of size
`order + 1` and record each (context, next) observation. -/
def addName (order : Nat) (chain : Chain) (name : List Char) : Chain :=
  (windows (order + 1) (paddedName order name)).foldl
    (fun ch w => chainPush ch (w.take order) (w.getD order hat)) chain

/-- `build_chain(names, order)` from `src/lib.rs`. -/
def build_chain (names : List (List Char)) (order : Nat) : Chain :=
  names.foldl (addName order) []

/-- Rust `&current[1..]` on a UTF-8 string, viewed on the char sequence:
defined (drops the first char) only when the first char is one byte wide;
otherwise the slice is out of bounds or not on a char boundary and the
Rust code panics (`none`). -/
def byteTail : List Char → Option (List Char)
  | [] => none
  | c :: rest => if c.utf8Size = 1 then some rest else none

/-- UTF-8 byte length of a string, Rust `str::len`. -/
def utf8Len (l : List Char) : Nat := (l.map Char.utf8Size).sum

/-- Character position of the last `' '`, mirroring `str::rfind(' ')`:
Rust returns the byte index and `split_at` cuts there, which keeps
exactly the characters strictly before the last space. -/
def lastSpacePos (l : List Char) : Option Nat :=
  if ' ' ∈ l then some (l.length - 1 - l.reverse.indexOf ' ') else none

/-- `ensure_complete_name` from `src/lib.rs`.  Note the faithful
modelling of `n.chars().take(n.len() - 1)`: `n.len()` is the BYTE
length, while `take` counts characters. -/
def ensure_complete_name (n : List Char) : List Char :=
  if n.getLast? = some hat then n.take (utf8Len n - 1)
  else
    match lastSpacePos n with
    | some i => n.take i
    | none => n

/-- The generation loop of `generate_name`.  `draws i` is the value the
fresh `WyRand` returns at iteration `i`; `generate_range(..len)` is in
range for `len > 0`, which `draws i % len` models surjectively, and for
`len = 0` the lookup `get` yields `none` either way (the code's own
comment: "if next_chars is empty it will generate 0 => get = None").
Returns `none` when the Rust code would panic at `&current[1..]`. -/
def genLoop (chain : Chain) (draws : Nat → Nat) :
    Nat → Nat → List Char → List Char → Option (List Char)
  | _, 0, _, result => some result
  | i, fuel + 1, current, result =>
    match chainGet chain current with
    | none => some (result ++ [hat])
    | some cs =>
      match cs.get? (draws i % cs.length) with
      | none => some result
      | some c =>
        if c = hat ∨ c = nul then some result
        else
          match byteTail current with
          | none => none
          | some cur => genLoop chain draws (i + 1) fuel (cur ++ [c]) (result ++ [c])

/-- `generate_name(chain, order, max_len)` from `src/lib.rs`,
parametrised by the sequence of random draws.  `none` models a panic. -/
def generate_name (chain : Chain) (order max_len : Nat) (draws : Nat → Nat) :
    Option (List Char) :=
  (genLoop chain draws 0 max_len (List.replicate order hat) []).map ensure_complete_name

/-- `capitalize_string` delegates to the external `capitalize` crate.
Modelled from the spec: the crate's `Capitalize::capitalize` uppercases
the first character and lowercases every remaining character, the
behaviour the spec's own test line (`"hi;who;are;you"` with separator
`" "` gives `"Hi;who;are;you"`) and the repository's tests
(`capitalize_each_substring("hi Who are you", ";") = "Hi who are you"`)
pin down. -/
def capitalize_string : List Char → List Char
  | [] => []
  | c :: rest => Char.toUpper c :: rest.map Char.toLower

/-- `sep.is_prefix_of`-style stripper: `some r` when `s = sep ++ r`. -/
def dropPre : List Char → List Char → Option (List Char)
  | [], s => some s
  | _ :: _, [] => none
  | p :: ps, c :: cs => if p = c then dropPre ps cs else none

/-- Worker for Rust `str::split` with a non-empty pattern: scan left to
right, cutting at each non-overlapping occurrence of `sep`.  `fuel`
bounds the recursion; it is initialised to the length of the scanned
string, which suffices whenever `sep` is non-empty. -/
def splitAux (sep : List Char) : Nat → List Char → List Char → List (List Char)
  | 0, s, acc => [acc.reverse ++ s]
  | fuel + 1, s, acc =>
    match s with
    | [] => [acc.reverse]
    | c :: rest =>
      match dropPre sep s with
      | some r => acc.reverse :: splitAux sep fuel r []
      | none => splitAux sep fuel rest (c :: acc)

/-- Rust `s.split(sep)`: for an empty pattern Rust yields an empty piece,
every single character, and a final empty piece; otherwise cut at each
occurrence of `sep`. -/
def rustSplit (s sep : List Char) : List (List Char) :=
  if sep = [] then [] :: s.map (fun c => [c]) ++ [[]]
  else splitAux sep s.length s []

/-- `itertools`' `.join(sep)`. -/
def joinSep (sep : List Char) : List (List Char) → List Char
  | [] => []
  | [x] => x
  | x :: xs => x ++ sep ++ joinSep sep xs

/-- `capitalize_each_substring(s, sep)` from `src/lib.rs`. -/
def capitalize_each_substring (s sep : List Char) : List Char :=
  joinSep sep ((rustSplit s sep).map capitalize_string)

/-- The chain-consistency predicate of the spec: every `order + 1`-window
of the padded string is an observed (context, next) pair of the table. -/
def WinChain (chain : Chain) (order : Nat) (s : List Char) : Prop :=
  ∀ w ∈ windows (order + 1) (List.replicate order hat ++ s),
    ∃ cs, chainGet chain (w.take order) = some cs ∧ w.getD order hat ∈ cs

section SharedLemmas

lemma foldlInv {α β : Type} (P : α → Prop) (f : α → β → α) :
    ∀ (l : List β) (a : α), P a → (∀ a b, P a → b ∈ l → P (f a b)) → P (l.foldl f a) := by
  intro l
  induction l with
  | nil => intro a h _; exact h
  | cons b t ih =>
    intro a h hstep
    exact ih (f a b) (hstep a b h (by simp))
      (fun a' b' h' hb' => hstep a' b' h' (by simp [hb']))

lemma windows_nil_of_lt {n : Nat} : ∀ {l : List Char}, l.length < n → windows n l = []
  | [], _ => rfl
  | c :: t, h => by simp only [windows, if_pos h]

lemma windows_ne_nil {n : Nat} {l : List Char} (h : n ≤ l.length) (h0 : l ≠ []) :
    windows n l ≠ [] := by
  cases l with
  | nil => exact absurd rfl h0
  | cons c t => simp only [windows, if_neg (Nat.not_lt.2 h)]; exact List.cons_ne_nil _ _

lemma windows_mem_length {n : Nat} : ∀ {l w : List Char}, w ∈ windows n l → w.length = n := by
  intro l
  induction l with
  | nil => intro w hw; simp [windows] at hw
  | cons c t ih =>
    intro w hw
    by_cases h : (c :: t).length < n
    · rw [windows_nil_of_lt h] at hw; simp at hw
    · simp only [windows, if_neg h, List.mem_cons] at hw
      rcases hw with hw | hw
      · subst hw; rw [List.length_take]; exact Nat.min_eq_left (Nat.not_lt.1 h)
      · exact ih hw

lemma windows_mem_sub {n : Nat} :
    ∀ {l w : List Char}, w ∈ windows n l → ∀ c ∈ w, c ∈ l := by
  intro l
  induction l with
  | nil => intro w hw; simp [windows] at hw
  | cons c t ih =>
    intro w hw x hx
    by_cases h : (c :: t).length < n
    · rw [windows_nil_of_lt h] at hw; simp at hw
    · simp only [windows, if_neg h, List.mem_cons] at hw
      rcases hw with hw | hw
      · exact List.take_subset _ _ (hw ▸ hx)
      · exact List.mem_cons_of_mem _ (ih hw x hx)

lemma windows_mem_append {n : Nat} (t : List Char) :
    ∀ {l w : List Char}, w ∈ windows n l → w ∈ windows n (l ++ t) := by
  intro l
  induction l with
  | nil => intro w hw; simp [windows] at hw
  | cons c l' ih =>
    intro w hw
    by_cases h : (c :: l').length < n
    · rw [windows_nil_of_lt h] at hw; simp at hw
    · simp only [windows, if_neg h, List.mem_cons] at hw
      have hlen : ¬ ((c :: l') ++ t).length < n := by
        simp only [List.length_append, List.length_cons] at h ⊢; omega
      have : (c :: l') ++ t = c :: (l' ++ t) := rfl
      rw [this] at hlen ⊢
      simp only [windows, if_neg hlen, List.mem_cons]
      rcases hw with hw | hw
      · left
        rw [show (c :: (l' ++ t)) = (c :: l') ++ t from rfl,
          List.take_append_of_le_length (by simpa using Nat.not_lt.1 h)]
        exact hw
      · right; exact ih hw

lemma windows_concat {n : Nat} (hn : 1 ≤ n) (c : Char) :
    ∀ {l : List Char}, n ≤ l.length + 1 →
      windows n (l ++ [c]) = windows n l ++ [l.drop (l.length + 1 - n) ++ [c]] := by
  intro l
  induction l with
  | nil =>
    intro h
    have hn1 : n = 1 := by simpa using Nat.le_antisymm (by simpa using h) hn
    subst hn1
    simp [windows]
  | cons x l' ih =>
    intro h
    by_cases h2 : n ≤ l'.length + 1
    · have hlen1 : ¬ (x :: (l' ++ [c])).length < n := by simp; omega
      have hlen2 : ¬ (x :: l').length < n := by simp; omega
      have hstep : (x :: l') ++ [c] = x :: (l' ++ [c]) := rfl
      rw [hstep]
      simp only [windows, if_neg hlen1, if_neg hlen2]
      rw [ih h2]
      have htake : (x :: (l' ++ [c])).take n = (x :: l').take n := by
        rw [show (x :: (l' ++ [c])) = (x :: l') ++ [c] from rfl,
          List.take_append_of_le_length (by simpa using h2)]
      rw [htake]
      have hdrop : (x :: l').drop ((x :: l').length + 1 - n) =
          l'.drop (l'.length + 1 - n) := by
        have : (x :: l').length + 1 - n = (l'.length + 1 - n) + 1 := by
          simp only [List.length_cons]; omega
        rw [this, List.drop_succ_cons]
      rw [hdrop]
      simp
    · have hn2 : n = l'.length + 2 := by simp only [List.length_cons] at h; omega
      have hlen1 : ¬ (x :: (l' ++ [c])).length < n := by simp; omega
      have hstep : (x :: l') ++ [c] = x :: (l' ++ [c]) := rfl
      rw [hstep]
      simp only [windows, if_neg hlen1]
      have hw1 : windows n (l' ++ [c]) = [] :=
        windows_nil_of_lt (by simp; omega)
      have hd : (x :: l').length + 1 - n = 0 := by simp only [List.length_cons]; omega
      rw [hw1, if_pos (show (x :: l').length < n by simp; omega), hd]
      have htk : (x :: (l' ++ [c])).take n = x :: (l' ++ [c]) :=
        List.take_of_length_le (by simp; omega)
      rw [htk]
      simp

lemma chainGet_mem : ∀ {ch : Chain} {k v : List Char},
    chainGet ch k = some v → (k, v) ∈ ch := by
  intro ch
  induction ch with
  | nil => intro k v h; simp [chainGet] at h
  | cons p rest ih =>
    intro k v h
    obtain ⟨k', v'⟩ := p
    by_cases he : k' = k
    · subst he
      obtain rfl : v' = v := by simpa [chainGet] using h
      exact List.mem_cons_self _ _
    · simp only [chainGet, if_neg he] at h
      exact List.mem_cons_of_mem _ (ih h)

lemma chainPush_inv (P : List Char → List Char → Prop) {key : List Char} {c : Char}
    (hgrow : ∀ k v, P k v → P k (v ++ [c])) (hnew : P key [c]) :
    ∀ {ch : Chain}, (∀ k v, (k, v) ∈ ch → P k v) →
      ∀ k v, (k, v) ∈ chainPush ch key c → P k v := by
  intro ch
  induction ch with
  | nil =>
    intro _ k v h
    simp only [chainPush, List.mem_singleton, Prod.mk.injEq] at h
    rw [h.1, h.2]; exact hnew
  | cons p rest ih =>
    intro hch k v h
    obtain ⟨k', v'⟩ := p
    by_cases he : k' = key
    · rw [chainPush, if_pos he] at h
      rcases List.mem_cons.1 h with h | h
      · rw [Prod.mk.injEq] at h
        obtain ⟨rfl, rfl⟩ := h
        exact hgrow _ _ (hch _ _ (List.mem_cons_self _ _))
      · exact hch k v (List.mem_cons_of_mem _ h)
    · rw [chainPush, if_neg he] at h
      rcases List.mem_cons.1 h with h | h
      · rw [Prod.mk.injEq] at h
        obtain ⟨rfl, rfl⟩ := h
        exact hch _ _ (List.mem_cons_self _ _)
      · exact ih (fun a b hb => hch a b (List.mem_cons_of_mem _ hb)) k v h

lemma getD_mem_of_lt : ∀ (l : List Char) (n : Nat) (d : Char),
    n < l.length → l.getD n d ∈ l
  | c :: t, 0, d, _ => by simp
  | c :: t, n + 1, d, h => by
    rw [List.getD_cons_succ]
    exact List.mem_cons_of_mem _ (getD_mem_of_lt t n d (by simpa using h))

lemma getD_append_self : ∀ (l : List Char) (c d : Char),
    (l ++ [c]).getD l.length d = c
  | [], c, d => rfl
  | x :: t, c, d => by
    rw [List.cons_append, List.length_cons, List.getD_cons_succ]
    exact getD_append_self t c d

lemma build_chain_wf (names : List (List Char)) (order : Nat) :
    ∀ k v, (k, v) ∈ build_chain names order → k.length = order ∧ v ≠ [] := by
  unfold build_chain
  refine foldlInv (fun ch => ∀ k v, (k, v) ∈ ch → k.length = order ∧ v ≠ [])
    (addName order) names [] (by intro k v h; simp at h) ?_
  intro ch name hch _
  unfold addName
  refine foldlInv (fun ch => ∀ k v, (k, v) ∈ ch → k.length = order ∧ v ≠ [])
    _ _ ch hch ?_
  intro ch' w hch' hw
  refine chainPush_inv (fun k v => k.length = order ∧ v ≠ [])
    (fun k v hkv => ⟨hkv.1, by simp⟩) ⟨?_, by simp⟩ hch'
  rw [List.length_take]
  exact Nat.min_eq_left (by rw [windows_mem_length hw]; omega)

lemma mem_paddedName_size1 {order : Nat} {name : List Char}
    (hname : ∀ c ∈ name, (Char.toLower c).utf8Size = 1) :
    ∀ c ∈ paddedName order name, c.utf8Size = 1 := by
  intro c hc
  rcases List.mem_append.1 hc with hc | hc
  · rw [List.eq_of_mem_replicate hc]; decide
  · obtain ⟨a, ha, rfl⟩ := List.mem_map.1 hc
    exact hname a ha

lemma chain_val_size1 (names : List (List Char)) (order : Nat)
    (hnames : ∀ name ∈ names, ∀ c ∈ name, (Char.toLower c).utf8Size = 1) :
    ∀ k v, (k, v) ∈ build_chain names order → ∀ c ∈ v, c.utf8Size = 1 := by
  unfold build_chain
  refine foldlInv (fun ch => ∀ k v, (k, v) ∈ ch → ∀ c ∈ v, c.utf8Size = 1)
    (addName order) names [] (by intro k v h; simp at h) ?_
  intro ch name hch hname
  unfold addName
  refine foldlInv (fun ch => ∀ k v, (k, v) ∈ ch → ∀ c ∈ v, c.utf8Size = 1)
    _ _ ch hch ?_
  intro ch' w hch' hw
  have hw1 : w.length = order + 1 := windows_mem_length hw
  have hpush : (w.getD order hat).utf8Size = 1 :=
    mem_paddedName_size1 (hnames name hname) _
      (windows_mem_sub hw _ (getD_mem_of_lt w order hat (by omega)))
  refine chainPush_inv (fun k v => ∀ c ∈ v, c.utf8Size = 1) ?_ ?_ hch'
  · intro k v hkv c hc
    rcases List.mem_append.1 hc with hc | hc
    · exact hkv c hc
    · rw [List.mem_singleton.1 hc]; exact hpush
  · intro c hc
    rw [List.mem_singleton.1 hc]; exact hpush

lemma utf8Len_eq_length : ∀ {l : List Char},
    (∀ c ∈ l, c.utf8Size = 1) → utf8Len l = l.length := by
  intro l
  induction l with
  | nil => intro _; rfl
  | cons c t ih =>
    intro h
    have hc : utf8Len (c :: t) = c.utf8Size + utf8Len t := by simp [utf8Len]
    rw [hc, h c (List.mem_cons_self _ _),
      ih (fun x hx => h x (List.mem_cons_of_mem _ hx)), List.length_cons]
    omega

lemma utf8Len_append (a b : List Char) : utf8Len (a ++ b) = utf8Len a + utf8Len b := by
  simp [utf8Len]

lemma ensure_concat_hat {r : List Char} (h : ∀ c ∈ r, c.utf8Size = 1) :
    ensure_complete_name (r ++ [hat]) = r := by
  unfold ensure_complete_name
  rw [if_pos (List.getLast?_concat r)]
  have h1 : utf8Len (r ++ [hat]) = r.length + 1 := by
    rw [utf8Len_append, utf8Len_eq_length h]
    have : utf8Len [hat] = 1 := by decide
    omega
  rw [h1, Nat.add_sub_cancel, List.take_left]

lemma ensure_self_extend (n : List Char) : ∃ t, n = ensure_complete_name n ++ t := by
  unfold ensure_complete_name
  by_cases h : n.getLast? = some hat
  · rw [if_pos h]
    exact ⟨n.drop (utf8Len n - 1), (List.take_append_drop _ n).symm⟩
  · rw [if_neg h]
    cases hsp : lastSpacePos n with
    | some i => exact ⟨n.drop i, (List.take_append_drop _ n).symm⟩
    | none => exact ⟨[], (List.append_nil n).symm⟩

lemma ensure_no_hat_no_space {n : List Char} (h1 : hat ∉ n) (h2 : ' ' ∉ n) :
    ensure_complete_name n = n := by
  unfold ensure_complete_name
  rw [if_neg (fun hc => h1 (List.mem_of_mem_getLast? (by rw [hc]; simp)))]
  rw [show lastSpacePos n = none from by rw [lastSpacePos, if_neg h2]]

lemma char_toNat_ofNat {n : Nat} (h : n < 55296) : (Char.ofNat n).toNat = n := by
  have hv : n.isValidChar := Or.inl h
  rw [Char.ofNat, dif_pos hv]
  rfl

lemma toUpper_eq (c : Char) :
    c.toUpper = if c.toNat ≥ 97 ∧ c.toNat ≤ 122 then Char.ofNat (c.toNat - 32) else c := rfl

lemma toLower_eq (c : Char) :
    c.toLower = if c.toNat ≥ 65 ∧ c.toNat ≤ 90 then Char.ofNat (c.toNat + 32) else c := rfl

lemma toUpper_toUpper (c : Char) : c.toUpper.toUpper = c.toUpper := by
  rw [toUpper_eq c]
  by_cases h : c.toNat ≥ 97 ∧ c.toNat ≤ 122
  · rw [if_pos h, toUpper_eq]
    have h2 : (Char.ofNat (c.toNat - 32)).toNat = c.toNat - 32 :=
      char_toNat_ofNat (by omega)
    rw [if_neg (by rw [h2]; omega)]
  · rw [if_neg h, toUpper_eq, if_neg h]

lemma toLower_toLower (c : Char) : c.toLower.toLower = c.toLower := by
  rw [toLower_eq c]
  by_cases h : c.toNat ≥ 65 ∧ c.toNat ≤ 90
  · rw [if_pos h, toLower_eq]
    have h2 : (Char.ofNat (c.toNat + 32)).toNat = c.toNat + 32 :=
      char_toNat_ofNat (by omega)
    rw [if_neg (by rw [h2]; omega)]
  · rw [if_neg h, toLower_eq, if_neg h]

lemma capitalize_idem (s : List Char) :
    capitalize_string (capitalize_string s) = capitalize_string s := by
  cases s with
  | nil => rfl
  | cons c rest =>
    simp only [capitalize_string]
    rw [toUpper_toUpper, List.map_map]
    exact congrArg _ (List.map_congr_left (fun a _ => toLower_toLower a))

lemma dropPre_some : ∀ {p s r : List Char}, dropPre p s = some r → s = p ++ r := by
  intro p
  induction p with
  | nil =>
    intro s r h
    obtain rfl : s = r := by simpa [dropPre] using h
    simp
  | cons x ps ih =>
    intro s r h
    cases s with
    | nil => simp [dropPre] at h
    | cons c cs =>
      by_cases he : x = c
      · subst he
        rw [dropPre, if_pos rfl] at h
        simpa using ih h
      · rw [dropPre, if_neg he] at h
        simp at h

lemma splitAux_ne_nil (sep : List Char) : ∀ (fuel : Nat) (s acc : List Char),
    splitAux sep fuel s acc ≠ [] := by
  intro fuel
  induction fuel with
  | zero => intro s acc; simp [splitAux]
  | succ f ih =>
    intro s acc
    cases s with
    | nil => simp [splitAux]
    | cons c rest =>
      cases h : dropPre sep (c :: rest) with
      | some r => simp [splitAux, h]
      | none => simp only [splitAux, h]; exact ih rest (c :: acc)

lemma joinSep_cons {sep a : List Char} {l : List (List Char)} (h : l ≠ []) :
    joinSep sep (a :: l) = a ++ sep ++ joinSep sep l := by
  cases l with
  | nil => exact absurd rfl h
  | cons b t => rfl

lemma splitAux_join {sep : List Char} (hsep : sep ≠ []) :
    ∀ (fuel : Nat) (s acc : List Char), s.length ≤ fuel →
      joinSep sep (splitAux sep fuel s acc) = acc.reverse ++ s := by
  intro fuel
  induction fuel with
  | zero =>
    intro s acc _
    rfl
  | succ f ih =>
    intro s acc h
    cases s with
    | nil => simp [splitAux, joinSep]
    | cons c rest =>
      cases hd : dropPre sep (c :: rest) with
      | some r =>
        have hs : c :: rest = sep ++ r := dropPre_some hd
        have hrlen : r.length ≤ f := by
          have hl := congrArg List.length hs
          cases sep with
          | nil => exact absurd rfl hsep
          | cons y ys =>
            simp only [List.length_cons, List.length_append] at hl h ⊢
            omega
        simp only [splitAux, hd]
        rw [joinSep_cons (splitAux_ne_nil sep f r []), ih r [] hrlen]
        rw [hs]
        simp
      | none =>
        simp only [splitAux, hd]
        rw [ih rest (c :: acc) (by simp at h ⊢; omega)]
        simp

lemma joinSep_nil_sep : ∀ l : List (List Char), joinSep [] l = l.flatten := by
  intro l
  induction l with
  | nil => rfl
  | cons a t ih =>
    cases t with
    | nil => simp [joinSep]
    | cons b t' =>
      rw [joinSep_cons (by simp), ih]
      simp

lemma flatten_map_single : ∀ s : List Char, (s.map (fun c => [c])).flatten = s := by
  intro s
  induction s with
  | nil => rfl
  | cons c t ih => simp [ih]

lemma joinSep_rustSplit (s sep : List Char) : joinSep sep (rustSplit s sep) = s := by
  unfold rustSplit
  by_cases h : sep = []
  · subst h
    rw [if_pos rfl, joinSep_nil_sep]
    simp [flatten_map_single]
  · rw [if_neg h]
    simpa using splitAux_join h s.length s [] (le_refl _)

lemma map_fix {f : List Char → List Char} :
    ∀ {l : List (List Char)}, (∀ p ∈ l, f p = p) → l.map f = l := by
  intro l
  induction l with
  | nil => intro _; rfl
  | cons a t ih =>
    intro h
    simp only [List.map_cons]
    rw [h a (List.mem_cons_self _ _), ih (fun p hp => h p (List.mem_cons_of_mem _ hp))]

lemma genLoop_spec (chain : Chain) (order : Nat) (draws : Nat → Nat)
    (hord : 1 ≤ order)
    (hQ : ∀ k v, (k, v) ∈ chain → ∀ c ∈ v, c.utf8Size = 1) :
    ∀ (fuel i : Nat) (current result : List Char),
      current.length = order →
      current = (List.replicate order hat ++ result).drop result.length →
      (∀ c ∈ current, c.utf8Size = 1) →
      (∀ c ∈ result, c.utf8Size = 1) →
      WinChain chain order result →
      ∃ r, (genLoop chain draws i fuel current result = some r ∨
            genLoop chain draws i fuel current result = some (r ++ [hat])) ∧
           (∀ c ∈ r, c.utf8Size = 1) ∧ WinChain chain order r := by
  intro fuel
  induction fuel with
  | zero =>
    intro i current result _ _ _ h4 h5
    exact ⟨result, Or.inl rfl, h4, h5⟩
  | succ fuel ih =>
    intro i current result h1 h2 h3 h4 h5
    cases hget : chainGet chain current with
    | none =>
      exact ⟨result, Or.inr (by simp only [genLoop, hget]), h4, h5⟩
    | some cs =>
      cases hidx : cs.get? (draws i % cs.length) with
      | none =>
        exact ⟨result, Or.inl (by simp only [genLoop, hget, hidx]), h4, h5⟩
      | some c =>
        by_cases hstop : c = hat ∨ c = nul
        · refine ⟨result, Or.inl ?_, h4, h5⟩
          simp only [genLoop, hget, hidx]
          rw [if_pos hstop]
        · have hcmem : c ∈ cs := List.get?_mem hidx
          have hc1 : c.utf8Size = 1 := hQ _ _ (chainGet_mem hget) c hcmem
          obtain ⟨c₀, rest, rfl⟩ : ∃ c₀ rest, current = c₀ :: rest := by
            cases current with
            | nil => simp at h1; omega
            | cons a b => exact ⟨a, b, rfl⟩
          have hc₀ : c₀.utf8Size = 1 := h3 c₀ (List.mem_cons_self _ _)
          have hbt : byteTail (c₀ :: rest) = some rest := by simp [byteTail, hc₀]
          have hLlen : (List.replicate order hat ++ result).length =
              order + result.length := by simp
          have hdrop1 : (List.replicate order hat ++ result).drop (result.length + 1) =
              rest := by
            rw [← List.drop_drop, ← h2, List.drop_succ_cons, List.drop_zero]
          have hlen1 : (result ++ [c]).length = result.length + 1 := by simp
          have hinv2 : rest ++ [c] =
              (List.replicate order hat ++ (result ++ [c])).drop (result ++ [c]).length := by
            rw [hlen1, ← List.append_assoc,
              List.drop_append_of_le_length (by rw [hLlen]; omega), hdrop1]
          have hwin : windows (order + 1) (List.replicate order hat ++ (result ++ [c])) =
              windows (order + 1) (List.replicate order hat ++ result) ++
                [(c₀ :: rest) ++ [c]] := by
            rw [← List.append_assoc,
              windows_concat (by omega) c (by rw [hLlen]; omega)]
            have hm : (List.replicate order hat ++ result).length + 1 - (order + 1) =
                result.length := by rw [hLlen]; omega
            rw [hm, ← h2]
          have hinv5 : WinChain chain order (result ++ [c]) := by
            intro w hw
            rw [hwin] at hw
            rcases List.mem_append.1 hw with hw | hw
            · exact h5 w hw
            · rw [List.mem_singleton.1 hw]
              refine ⟨cs, ?_, ?_⟩
              · rw [show order = (c₀ :: rest).length from h1.symm, List.take_left]
                exact hget
              · rw [show order = (c₀ :: rest).length from h1.symm, getD_append_self]
                exact hcmem
          obtain ⟨r, hr, hr1, hr2⟩ := ih (i + 1) (rest ++ [c]) (result ++ [c])
            (by simp at h1 ⊢; omega)
            hinv2
            (by
              intro x hx
              rcases List.mem_append.1 hx with hx | hx
              · exact h3 x (List.mem_cons_of_mem _ hx)
              · rw [List.mem_singleton.1 hx]; exact hc1)
            (by
              intro x hx
              rcases List.mem_append.1 hx with hx | hx
              · exact h4 x hx
              · rw [List.mem_singleton.1 hx]; exact hc1)
            hinv5
          refine ⟨r, ?_, hr1, hr2⟩
          have heq : genLoop chain draws i (fuel + 1) (c₀ :: rest) result =
              genLoop chain draws (i + 1) fuel (rest ++ [c]) (result ++ [c]) := by
            simp only [genLoop, hget, hidx]
            rw [if_neg hstop, hbt]
          rw [heq]
          exact hr

end SharedLemmas
/-- Claim C1 (amended): for every corpus whose characters remain single
UTF-8 bytes after lowercasing, every `order ≥ 1`, every `max_len` and every
sequence of random draws, `generate_name` returns a string (no panic), and
every `order + 1`-window of that string, left-padded with the marker, is a
(context, next character) pair recorded in `build_chain` of the same corpus
and order. -/
theorem chain_consistency_singlebyte (names : List (List Char)) (order max_len : Nat)
    (draws : Nat → Nat) (hord : 1 ≤ order)
    (hnames : ∀ name ∈ names, ∀ c ∈ name, (Char.toLower c).utf8Size = 1) :
    ∃ s, generate_name (build_chain names order) order max_len draws = some s ∧
         WinChain (build_chain names order) order s := by
  obtain ⟨r, hr, hr1, hr2⟩ := genLoop_spec (build_chain names order) order draws hord
    (chain_val_size1 names order hnames) max_len 0 (List.replicate order hat) []
    (by simp)
    (by simp)
    (by intro c hc; rw [List.eq_of_mem_replicate hc]; decide)
    (by intro c hc; simp at hc)
    (by
      intro w hw
      rw [List.append_nil, windows_nil_of_lt (by simp)] at hw
      simp at hw)
  rcases hr with hr | hr
  · refine ⟨ensure_complete_name r, ?_, ?_⟩
    · rw [generate_name, hr]; rfl
    · intro w hw
      obtain ⟨t, ht⟩ := ensure_self_extend r
      apply hr2
      have hla : List.replicate order hat ++ r =
          (List.replicate order hat ++ ensure_complete_name r) ++ t := by
        rw [List.append_assoc, ← ht]
      rw [hla]
      exact windows_mem_append t hw
  · refine ⟨r, ?_, hr2⟩
    rw [generate_name, hr]
    rw [show ((some (r ++ [hat])).map ensure_complete_name : Option (List Char)) =
      some (ensure_complete_name (r ++ [hat])) from rfl]
    rw [ensure_concat_hat hr1]

/-- Witness for the chain-consistency theorem at the corpus `["ab"]`,
order 1, `max_len` 3, and the all-zero draw sequence. -/
theorem chain_consistency_singlebyte_witness :
    ∃ s, generate_name (build_chain [['a', 'b']] 1) 1 3 (fun _ => 0) = some s ∧
         WinChain (build_chain [['a', 'b']] 1) 1 s :=
  chain_consistency_singlebyte [['a', 'b']] 1 3 (fun _ => 0) (by decide) (by decide)

/-- Claim C1 as stated fails on a multi-byte corpus: from the non-empty
corpus `["é"]` with order 1 and `max_len` 2, the produced string is
`"é^"` (the appended marker survives the repair step because of the
byte/char length confusion), and its second window has the context `"é"`
with next character `'^'`, a pair absent from the table. -/
theorem chain_consistency_multibyte_cex :
    generate_name (build_chain [['é']] 1) 1 2 (fun _ => 0) = some ['é', hat] ∧
    ['é', hat] ∈ windows 2 (List.replicate 1 hat ++ ['é', hat]) ∧
    chainGet (build_chain [['é']] 1) (['é', hat].take 1) = none := by decide

/-- Claim C2 (amended): `capitalize_string` maps the empty string to the
empty string, `"abc"` to `"Abc"`, `"Abc"` to `"Abc"`, and is idempotent on
every input; it uppercases the first character but lowercases (rather than
leaves unchanged) the remaining characters. -/
theorem capitalize_string_spec :
    capitalize_string [] = [] ∧
    capitalize_string "abc".toList = "Abc".toList ∧
    capitalize_string "Abc".toList = "Abc".toList ∧
    ∀ s : List Char, capitalize_string (capitalize_string s) = capitalize_string s :=
  ⟨rfl, by decide, by decide, capitalize_idem⟩

/-- Claim C2 as stated fails: `capitalize_string` does not leave the
characters after the first unchanged; it lowercases them, as the
repository's own tests pin down. -/
theorem capitalize_string_unchanged_cex :
    capitalize_string "hi Who are you".toList = "Hi who are you".toList ∧
    "Hi who are you".toList ≠ "Hi Who are you".toList := by decide

/-- Claim C3 (amended): `build_chain` with order 0 maps every training
string into the single empty-string context (every key of the order-0
table is the empty string), and `generate_name` with order 0 and
`max_len = 0` returns the empty string for every table; but with
`max_len ≥ 1` generation can panic (see the counterexample), so the
claim's "completes without failure for every table and max_len" is false. -/
theorem order_zero_spec :
    (∀ (names : List (List Char)) (k v : List Char),
       (k, v) ∈ build_chain names 0 → k = []) ∧
    (∀ (chain : Chain) (draws : Nat → Nat),
       generate_name chain 0 0 draws = some []) := by
  constructor
  · intro names k v h
    exact List.length_eq_zero.1 (build_chain_wf names 0 k v h).1
  · intro chain draws
    rfl

/-- Witness for the order-0 theorem at the corpus `["a"]` and a concrete
table. -/
theorem order_zero_spec_witness :
    ([] : List Char) = [] ∧
    generate_name [(([] : List Char), ['a'])] 0 0 (fun _ => 0) = some [] :=
  ⟨order_zero_spec.1 [['a']] [] ['a'] (by decide),
   order_zero_spec.2 [(([] : List Char), ['a'])] (fun _ => 0)⟩

/-- Claim C3 as stated fails: generating with order 0 and `max_len = 1`
from the order-0 table of the corpus `["ab"]` panics (Rust `&""[1..]` is
out of bounds) as soon as the sampled character is not a marker. -/
theorem order_zero_gen_cex :
    generate_name (build_chain [['a', 'b']] 0) 0 1 (fun _ => 0) = none := by decide

/-- Claim C4: evaluation of the code at the failing input.  With the
corpus `["éa"]`, order 1, `max_len` 2, the generator samples `'é'`, the
context becomes `"é"`, and the next slide `&current[1..]` cuts inside the
two-byte character: the Rust code panics (modelled by `none`) instead of
keeping a context of exactly `order` characters. -/
theorem gen_slide_multibyte_eval :
    generate_name (build_chain [['é', 'a']] 1) 1 2 (fun _ => 0) = none := by decide

/-- Claim C5: evaluation of the code at the claim's own examples and at
the failing input.  The ASCII examples hold, but on `"é^"` the code
returns `"é^"` unchanged: `n.chars().take(n.len() - 1)` takes
`byte-length - 1 = 2` characters, so the trailing marker is not
stripped. -/
theorem ensure_complete_name_eval :
    ensure_complete_name "Gianni^".toList = "Gianni".toList ∧
    ensure_complete_name [hat] = [] ∧
    ensure_complete_name "Gladewalker Dream Of".toList = "Gladewalker Dream".toList ∧
    ensure_complete_name "Barkskin Listener".toList = "Barkskin".toList ∧
    ensure_complete_name ['é', hat] = ['é', hat] := by decide

/-- Claim C6 (amended): the two stop conditions agree only on buffers made
of single-byte characters that contain neither the marker nor a space;
there both the absent-context stop (append a marker, then repair) and the
natural marker-sample stop (repair as is) return the buffer unchanged. -/
theorem stop_conditions_agree (buf : List Char)
    (h1 : ∀ c ∈ buf, c.utf8Size = 1) (h2 : hat ∉ buf) (h3 : ' ' ∉ buf) :
    ensure_complete_name (buf ++ [hat]) = ensure_complete_name buf ∧
    ensure_complete_name buf = buf := by
  have hb : ensure_complete_name buf = buf := ensure_no_hat_no_space h2 h3
  exact ⟨by rw [ensure_concat_hat h1, hb], hb⟩

/-- Witness for the stop-condition agreement theorem at the buffer
`"ab"`. -/
theorem stop_conditions_agree_witness :
    ensure_complete_name (['a', 'b'] ++ [hat]) = ensure_complete_name ['a', 'b'] ∧
    ensure_complete_name ['a', 'b'] = ['a', 'b'] :=
  stop_conditions_agree ['a', 'b'] (by decide) (by decide) (by decide)

/-- Claim C6 as stated fails: on the buffer `"a b"` the absent-context
stop yields `"a b"` (marker appended then stripped) while the natural
marker-sample stop yields `"a"` (the repair truncates at the last space),
so the two conventions are not behaviorally identical. -/
theorem stop_conditions_differ_cex :
    ensure_complete_name (['a', ' ', 'b'] ++ [hat]) = ['a', ' ', 'b'] ∧
    ensure_complete_name ['a', ' ', 'b'] = ['a'] ∧
    (['a', ' ', 'b'] : List Char) ≠ ['a'] := by decide

/-- Claim C7 (amended): with `order ≥ 1`, every non-empty training string
yields at least one window (padding makes the padded length at least
`order + 1`), while an empty training string yields no windows at all
(its padded length is `order < order + 1`), hence contributes nothing to
the table. -/
theorem padded_windows_spec (order : Nat) (hord : 1 ≤ order) :
    (∀ name : List Char, name ≠ [] →
       windows (order + 1) (paddedName order name) ≠ []) ∧
    (∀ names : List (List Char),
       build_chain (names ++ [[]]) order = build_chain names order) := by
  constructor
  · intro name hname
    have hlen : (paddedName order name).length = order + name.length := by
      simp [paddedName]
    have hpos : 1 ≤ name.length := by
      cases name with
      | nil => exact absurd rfl hname
      | cons a t => simp
    exact windows_ne_nil (by rw [hlen]; omega)
      (List.length_pos.1 (by rw [hlen]; omega))
  · intro names
    have hz : windows (order + 1) (paddedName order []) = [] := by
      apply windows_nil_of_lt
      simp [paddedName]
    rw [build_chain, build_chain, List.foldl_append]
    simp only [List.foldl_cons, List.foldl_nil]
    rw [addName, hz]
    rfl

/-- Witness for the window theorem at order 1 and the corpus `["a"]`. -/
theorem padded_windows_spec_witness :
    windows 2 (paddedName 1 ['a']) ≠ [] ∧
    build_chain ([['a']] ++ [[]]) 1 = build_chain [['a']] 1 :=
  ⟨(padded_windows_spec 1 (by decide)).1 ['a'] (by decide),
   (padded_windows_spec 1 (by decide)).2 [['a']]⟩

/-- Claim C7 as stated fails for empty training strings: the corpus
`[""]` with order 1 yields an empty table, not a padding-to-padding
transition; in particular the all-padding context `"^"` is absent. -/
theorem empty_name_no_windows_cex :
    build_chain [[]] 1 = [] ∧ chainGet (build_chain [[]] 1) [hat] = none := by decide

/-- Claim C8: a context mapped to an empty next-character sequence is a
normal stop: the loop returns the buffer unchanged (no character is drawn
from the empty sequence, no panic), and `generate_name` starting from such
a context returns the repaired empty buffer. -/
theorem empty_next_stop :
    (∀ (chain : Chain) (draws : Nat → Nat) (i fuel : Nat) (current result : List Char),
       chainGet chain current = some [] →
       genLoop chain draws i (fuel + 1) current result = some result) ∧
    (∀ (chain : Chain) (draws : Nat → Nat) (order max_len : Nat),
       chainGet chain (List.replicate order hat) = some [] →
       generate_name chain order (max_len + 1) draws = some []) := by
  have hstep : ∀ (chain : Chain) (draws : Nat → Nat) (i fuel : Nat)
      (current result : List Char), chainGet chain current = some [] →
      genLoop chain draws i (fuel + 1) current result = some result := by
    intro chain draws i fuel current result h
    simp [genLoop, h]
  constructor
  · exact hstep
  · intro chain draws order max_len h
    rw [generate_name, hstep chain draws 0 max_len _ [] h]
    rfl

/-- Witness for the empty-sequence stop at a concrete one-entry table. -/
theorem empty_next_stop_witness :
    genLoop [((['a'] : List Char), ([] : List Char))] (fun _ => 0) 0 1 ['a'] ['x'] =
      some ['x'] :=
  empty_next_stop.1 [(['a'], [])] (fun _ => 0) 0 0 ['a'] ['x'] (by decide)

/-- Claim C9 (amended): `capitalize_each_substring` splits on the
separator, applies `capitalize_string` (first character uppercased, rest
lowercased) to each substring independently, and rejoins; the number of
substrings is unchanged; it is the identity when every substring is
already a fixed point of `capitalize_string`; and
`capitalize_each_substring("hi who are you", " ") = "Hi Who Are You"`. -/
theorem capitalize_each_substring_spec :
    (∀ s sep : List Char,
       capitalize_each_substring s sep =
         joinSep sep ((rustSplit s sep).map capitalize_string) ∧
       ((rustSplit s sep).map capitalize_string).length = (rustSplit s sep).length ∧
       ((∀ p ∈ rustSplit s sep, capitalize_string p = p) →
         capitalize_each_substring s sep = s)) ∧
    capitalize_each_substring "hi who are you".toList " ".toList =
      "Hi Who Are You".toList := by
  constructor
  · intro s sep
    refine ⟨rfl, by simp, ?_⟩
    intro h
    rw [capitalize_each_substring, map_fix h, joinSep_rustSplit]
  · decide

/-- Witness for the substring theorem: an already-capitalized two-word
string is a fixed point. -/
theorem capitalize_each_substring_spec_witness :
    capitalize_each_substring "Hi Who".toList " ".toList = "Hi Who".toList :=
  ((capitalize_each_substring_spec.1 "Hi Who".toList " ".toList).2.2) (by decide)

/-- Claim C9 as stated fails: with separator `";"` the whole string is one
substring, and `capitalize_string` lowercases its interior uppercase `W`,
so characters other than each substring's first are affected. -/
theorem capitalize_each_substring_cex :
    capitalize_each_substring "hi Who are you".toList ";".toList =
      "Hi who are you".toList ∧
    "Hi who are you".toList ≠ "Hi Who are you".toList := by decide

/-- Claim C10: in every table built by `build_chain`, every key has
exactly `order` characters and every value is non-empty; consequently a
successful lookup never returns an empty next-character sequence, so the
empty-sequence stop branch of `generate_name` is unreachable on such
tables. -/
theorem build_chain_wf_spec (names : List (List Char)) (order : Nat) :
    (∀ k v, (k, v) ∈ build_chain names order → k.length = order ∧ v ≠ []) ∧
    (∀ ctx cs, chainGet (build_chain names order) ctx = some cs → cs ≠ []) := by
  refine ⟨build_chain_wf names order, ?_⟩
  intro ctx cs h
  exact (build_chain_wf names order ctx cs (chainGet_mem h)).2

/-- Witness for the table well-formedness theorem on the corpus `["ab"]`
with order 1. -/
theorem build_chain_wf_spec_witness :
    ((['a'] : List Char).length = 1 ∧ (['b'] : List Char) ≠ []) ∧
    (['b'] : List Char) ≠ [] :=
  ⟨(build_chain_wf_spec [['a', 'b']] 1).1 ['a'] ['b'] (by decide),
   (build_chain_wf_spec [['a', 'b']] 1).2 ['a'] ['b'] (by decide)⟩
